import Mathlib

/-!
Verification of the scl.js container library against its design document.

The development shallowly embeds the relevant parts of the source:

* the singly- and doubly-linked lists (src/list/single.ts, src/list/double.ts,
  and the older unnamed copy of the singly-linked list),
* the generic ordering and equality helpers (src/util.ts) over a model of
  JavaScript values,
* the sorted vector (unnamed SortVector file),
* the ordered AVL index, its bound queries and the multi-index container,
  which are absent from the provided sources and are therefore modelled
  from the design document (their doc comments say so).

Machine integers do not matter here (all sizes are small naturals), mutation
is modelled by explicit state passing, and JavaScript reference equality on
primitive values is modelled by decidable equality. All definitions are
executable.
-/

namespace Scl

/-! ## Generic ordering helpers

A comparator is a Boolean "precedes" relation. The design document (section 6)
requires comparators to be strict weak orderings; the record below captures
exactly the axioms listed there: irreflexivity, transitivity, and consistency
(incomparable keys relate to every third key in the same way, on both sides).
Asymmetry is derived later. -/

/-- Strict weak ordering axioms for a Boolean comparator, as demanded by the
design document's comparator contract. -/
structure IsSWO {α : Type} (lt : α → α → Bool) : Prop where
  irrefl : ∀ a, lt a a = false
  trans : ∀ a b c, lt a b = true → lt b c = true → lt a c = true
  consistL : ∀ a b c, lt a b = false → lt b a = false → lt a c = lt b c
  consistR : ∀ a b c, lt a b = false → lt b a = false → lt c a = lt c b

/-- Stable ordered insertion: the new element is placed before the first
element that it strictly precedes, hence after every element it does not
strictly precede (in particular after all elements equivalent to it). -/
def sIns {α : Type} (lt : α → α → Bool) (x : α) : List α → List α
  | [] => [x]
  | y :: ys => if lt x y then x :: y :: ys else y :: sIns lt x ys

/-- The multiset of the inserted elements sorted by the comparator, with
elements whose keys are equivalent under the comparator kept in their
original insertion order (elements are inserted left to right, each one
landing after all elements equivalent to it that are already present). -/
def stableSorted {α : Type} (lt : α → α → Bool) (els : List α) : List α :=
  els.foldl (fun acc x => sIns lt x acc) []

/-- The comparator used by all the numeric test scenarios:
(a, b) => a < b on numbers. -/
def natLt (a b : Nat) : Bool := a < b

/-! ## Singly-linked list (src/list/single.ts)

The list state is modelled by the sequence of node values reachable from
the first node; size is the length. Reference equality on the element type
is modelled by decidable equality (the tests use numbers). -/

namespace SLL

/-- Embedding of SingleLinkedList.has from src/list/single.ts, lines 268-275.
The JavaScript loop is "let node = firstNode; while (node !== null) if
(node.value === el) return true; return false" — the body never advances
node, so the loop state is unchanged between iterations. The embedding makes
the loop fuel explicit; a result of none means the loop has not terminated
within the given number of iterations. -/
def hasFuel {α : Type} [DecidableEq α] (el : α) : List α → Nat → Option Bool
  | _, 0 => none
  | [], _ + 1 => some false
  | v :: rest, n + 1 =>
    if v = el then some true else hasFuel el (v :: rest) n

/-- Embedding of SingleLinkedList.delete (src/list/single.ts, lines 315-336):
walk from the first node, unlink the first node whose value is (reference-)
equal to the element, decrement the size, and return true; return false
leaving the list unchanged when no node matches. Result: (found, new node
sequence); the size is the length of the sequence. -/
def deleteFirst {α : Type} [DecidableEq α] (el : α) : List α → Bool × List α
  | [] => (false, [])
  | v :: rest =>
    if v = el then (true, rest)
    else
      let r := deleteFirst el rest
      (r.1, v :: r.2)

/-- The inner while loop of SingleLinkedList.deleteAll (lines 346-349): skip
the whole contiguous run of nodes equal to the element, decrementing the size
once per node. -/
def dropRun {α : Type} [DecidableEq α] (el : α) : List α → List α
  | [] => []
  | v :: rest => if v = el then dropRun el rest else v :: rest

/-- Embedding of SingleLinkedList.deleteAll (src/list/single.ts, lines
338-365). On meeting a node equal to the element the code skips the whole
contiguous run of equal nodes, splices it out, and increments the removal
counter once; it then resumes scanning after the run. Result: (count, new
node sequence). -/
def deleteAllRuns {α : Type} [DecidableEq α] (el : α) (l : List α) : Nat × List α :=
  match l with
  | [] => (0, [])
  | v :: rest =>
    if v = el then
      let r := deleteAllRuns el (dropRun el rest)
      (r.1 + 1, r.2)
    else
      let r := deleteAllRuns el rest
      (r.1, v :: r.2)
  termination_by l.length
  decreasing_by
    · have h : ∀ m : List α, (dropRun el m).length ≤ m.length := by
        intro m
        induction m with
        | nil => simp [dropRun]
        | cons w ws ih =>
          simp only [dropRun]
          by_cases hw : w = el
          · simp only [hw, if_pos rfl]
            exact le_trans ih (by simp)
          · simp [hw]
      simp only [List.length_cons]
      exact Nat.lt_succ_of_le (h _)
    · simp

end SLL

/-- Embedding of DoubleLinkedList.has from src/list/double.ts, lines 184-190;
the code is identical in shape to the singly-linked version and likewise
never advances the node inside the loop. -/
def DLL.hasFuel {α : Type} [DecidableEq α] (el : α) : List α → Nat → Option Bool
  | _, 0 => none
  | [], _ + 1 => some false
  | v :: rest, n + 1 =>
    if v = el then some true else DLL.hasFuel el (v :: rest) n

/-- Embedding of the delete method of the older unnamed SingleLinkedList copy
(src/unnamed/part_001, lines 234-254), restricted to the portion of the walk
past the first node: there the code unlinks the matching node normally
(prev.next = node.next). The _size field and the corrupted _lastNode
assignment are not part of the reachable-value sequence; _size is in fact
never decremented by that method. -/
def V0.deleteAux {α : Type} [DecidableEq α] (el : α) : List α → Bool × List α
  | [] => (false, [])
  | v :: rest =>
    if v = el then (true, rest)
    else
      let r := V0.deleteAux el rest
      (r.1, v :: r.2)

/-- Embedding of the delete method of the older unnamed SingleLinkedList copy
(src/unnamed/part_001, lines 234-254). When the match is the first node the
code executes "this._firstNode = null" (not = next), so every node becomes
unreachable and the list reads as empty. Result: (found, reachable node
sequence). -/
def V0.delete {α : Type} [DecidableEq α] (el : α) : List α → Bool × List α
  | [] => (false, [])
  | v :: rest =>
    if v = el then (true, [])
    else
      let r := V0.deleteAux el rest
      (r.1, v :: r.2)

/-! ## JavaScript values and the generic helpers of src/util.ts

JsVal models the JavaScript values the helpers dispatch on: numbers (the
scenarios use integers), strings, arrays, plain objects (association lists
with distinct keys, as JavaScript guarantees), booleans, null and undefined.
isArray/isObject dispatch is mirrored by constructor matching: nullv has
typeof object but fails isObject, and arrays fail isObject. -/

/-- Model of the JavaScript values that src/util.ts's helpers inspect. -/
inductive JsVal : Type where
  | num (n : Int)
  | str (s : String)
  | arr (elems : List JsVal)
  | obj (fields : List (String × JsVal))
  | boolv (b : Bool)
  | nullv
  | undefv

/-- Property lookup a[key] on an object's field list: the binding of the
first matching key, none when the key is absent (JavaScript undefined). -/
def lookupJs (kvs : List (String × JsVal)) (k : String) : Option JsVal :=
  match kvs with
  | [] => none
  | (k', v) :: rest => if k' = k then some v else lookupJs rest k

/-- String comparison used to model JavaScript's default sort() over
Object.keys: lexicographic order. -/
def strLt (a b : String) : Bool := a < b

/-- Object.keys(a).sort(): the keys in ascending lexicographic order. -/
def sortedKeys (kvs : List (String × JsVal)) : List String :=
  stableSorted strLt (kvs.map Prod.fst)

mutual

/-- Embedding of the lesser helper (src/util.ts, lines 198-243). Numbers and
strings use the native < comparison; arrays of equal length run the indexwise
loop with its foundLesser flag (shorter arrays always precede longer ones);
plain objects run the key loop of lines 220-239; every other pairing returns
false. -/
def lesser : JsVal → JsVal → Bool
  | .num a, .num b => a < b
  | .str a, .str b => a < b
  | .arr a, .arr b =>
    if a.length < b.length then true
    else if b.length < a.length then false
    else lesserArr a b false
  | .obj a, .obj b =>
    if (sortedKeys a).length > b.length then false
    else lesserObj (sortedKeys a) a b false
  | _, _ => false
  termination_by x y => (sizeOf x + sizeOf y, 0)
  decreasing_by
    · apply Prod.Lex.left
      simp only [JsVal.arr.sizeOf_spec]
      omega
    · apply Prod.Lex.left
      simp only [JsVal.obj.sizeOf_spec]
      omega

/-- The indexwise loop of the array branch of lesser (lines 210-218): walk
the paired elements carrying the foundLesser flag; an index where the right
element precedes the left returns false immediately; otherwise the final
flag is returned. Both lists have the same length when called. -/
def lesserArr : List JsVal → List JsVal → Bool → Bool
  | [], _, found => found
  | _ :: _, [], found => found
  | x :: xs, y :: ys, found =>
    if lesser x y then lesserArr xs ys true
    else if lesser y x then false
    else lesserArr xs ys found
  termination_by xs ys _ => (sizeOf xs + sizeOf ys, 0)
  decreasing_by
    all_goals
      (apply Prod.Lex.left
       simp only [List.cons.sizeOf_spec]
       omega)

/-- The key loop of the object branch of lesser (lines 226-239): for each of
a's keys in sorted order, a missing (undefined) binding in b returns false;
a key where a's value precedes b's sets foundLesser; a key where b's value
precedes a's returns false. At the end the result is true when foundLesser
is set (extra.size >= 0 always holds), and otherwise whether b has keys
that a lacks (extra.size > 0). -/
def lesserObj : List String → List (String × JsVal) → List (String × JsVal) → Bool → Bool
  | [], a, b, found =>
    if found then true
    else (b.map Prod.fst).any (fun k => !(a.map Prod.fst).contains k)
  | k :: ks, a, b, found =>
    match hbk : lookupJs b k with
    | none => false
    | some .undefv => false
    | some bv =>
      match hak : lookupJs a k with
      | none => lesserObj ks a b found
      | some av =>
        if lesser av bv then lesserObj ks a b true
        else if lesser bv av then false
        else lesserObj ks a b found
  termination_by ks a b _ => (sizeOf a + sizeOf b, ks.length)
  decreasing_by
    all_goals
      first
        | (apply Prod.Lex.right
           simp only [List.length_cons]
           omega)
        | (apply Prod.Lex.left
           have hlk : ∀ (kvs : List (String × Scl.JsVal)) (k : String) (v : Scl.JsVal),
               lookupJs kvs k = some v → sizeOf v < sizeOf kvs := by
             intro kvs
             induction kvs with
             | nil => intro k v h; simp [lookupJs] at h
             | cons p rest ih =>
               intro k v h
               rcases p with ⟨k', v'⟩
               simp only [lookupJs] at h
               by_cases hk : k' = k
               · rw [if_pos hk] at h
                 cases h
                 simp only [List.cons.sizeOf_spec, Prod.mk.sizeOf_spec]
                 omega
               · rw [if_neg hk] at h
                 have := ih k v h
                 simp only [List.cons.sizeOf_spec]
                 omega
           have h1 := hlk _ _ _ hbk
           have h2 := hlk _ _ _ hak
           omega)

end

mutual

/-- Embedding of the equal helper (src/util.ts, lines 245-277). Numbers and
strings compare with ===; arrays compare length then elementwise; plain
objects compare key-set size, then for each of a's keys require the binding
to exist in b (not undefined) and the values to be equal; every other
pairing returns false. -/
def jsEqual : JsVal → JsVal → Bool
  | .num a, .num b => a = b
  | .str a, .str b => a = b
  | .arr a, .arr b => a.length = b.length && jsEqualArr a b
  | .obj a, .obj b => a.length = b.length && jsEqualObj a b
  | _, _ => false
  termination_by x y => sizeOf x + sizeOf y
  decreasing_by
    all_goals
      (simp only [JsVal.arr.sizeOf_spec, JsVal.obj.sizeOf_spec]
       omega)

/-- The elementwise loop of the array branch of equal (lines 255-259). -/
def jsEqualArr : List JsVal → List JsVal → Bool
  | [], _ => true
  | _ :: _, [] => true
  | x :: xs, y :: ys => jsEqual x y && jsEqualArr xs ys
  termination_by xs ys => sizeOf xs + sizeOf ys
  decreasing_by
    all_goals
      (simp only [List.cons.sizeOf_spec]
       omega)

/-- The key loop of the object branch of equal (lines 266-273): for each
binding of a, b must bind the same key to a defined value equal to a's. -/
def jsEqualObj : List (String × JsVal) → List (String × JsVal) → Bool
  | [], _ => true
  | (k, v) :: as₀, b =>
    match hbk : lookupJs b k with
    | none => false
    | some .undefv => false
    | some bv => jsEqual v bv && jsEqualObj as₀ b
  termination_by as₀ b => sizeOf as₀ + sizeOf b
  decreasing_by
    · have hlk : ∀ (kvs : List (String × Scl.JsVal)) (k : String) (v : Scl.JsVal),
          lookupJs kvs k = some v → sizeOf v < sizeOf kvs := by
        intro kvs
        induction kvs with
        | nil => intro k v h; simp [lookupJs] at h
        | cons p rest ih =>
          intro k v h
          rcases p with ⟨k', v'⟩
          simp only [lookupJs] at h
          by_cases hk : k' = k
          · rw [if_pos hk] at h
            cases h
            simp only [List.cons.sizeOf_spec, Prod.mk.sizeOf_spec]
            omega
          · rw [if_neg hk] at h
            have := ih k v h
            simp only [List.cons.sizeOf_spec]
            omega
      have h1 := hlk _ _ _ hbk
      simp only [List.cons.sizeOf_spec, Prod.mk.sizeOf_spec]
      omega
    · simp only [List.cons.sizeOf_spec, Prod.mk.sizeOf_spec]
      omega

end

/-- The shapes on which equal can succeed: numbers, strings, arrays of
supported values, and plain objects with distinct keys binding supported
values. Booleans, null and undefined are unsupported. -/
def supported : JsVal → Bool
  | .num _ => true
  | .str _ => true
  | .arr xs => xs.attach.all (fun x => supported x.1)
  | .obj kvs => decide (kvs.map Prod.fst).Nodup
      && kvs.attach.all (fun kv => supported kv.1.2)
  | .boolv _ => false
  | .nullv => false
  | .undefv => false
  termination_by v => sizeOf v
  decreasing_by
    · have := List.sizeOf_lt_of_mem x.2
      simp only [JsVal.arr.sizeOf_spec]
      omega
    · have := List.sizeOf_lt_of_mem kv.2
      rcases hkv : kv.1 with ⟨k, v⟩
      rw [hkv] at this
      simp only [JsVal.obj.sizeOf_spec, Prod.mk.sizeOf_spec] at *
      omega

/-- Whether two values are both numbers, both strings, both arrays or both
plain objects — the four pairings that have a dedicated branch in equal. -/
def bothSupportedShape : JsVal → JsVal → Bool
  | .num _, .num _ => true
  | .str _, .str _ => true
  | .arr _, .arr _ => true
  | .obj _, .obj _ => true
  | _, _ => false

/-! ## Sorted vector (unnamed SortVector source file)

The state carries the backing storage _elements — the prefix of slots that
hold a defined value, which can extend beyond the live region because
delete/deleteAtIndex (copyWithin) leave a stale copy behind — together with
the live count _elementCount and the comparator. The holes of the JavaScript
array past the defined prefix are not represented: Array.prototype.sort
keeps every defined value in front of the holes, so they never enter the
defined prefix. The observable elements (iteration, getAt) are the first
_elementCount backing slots. -/

/-- Model of the SortVector state: the defined backing slots (live prefix
followed by possible stale slots), the live element count, and the
comparator (a JavaScript-style compare function returning a number). -/
structure SortVector (α : Type) where
  backing : List α
  count : Nat
  cmp : α → α → Int

/-- The observable live region _elements[0 .. _elementCount): what
iteration and positional access expose. -/
def SortVector.elements {α : Type} (v : SortVector α) : List α :=
  v.backing.take v.count

/-- Model of JavaScript Array.prototype.sort with a compare function: the
elements ordered by the comparator, equal-comparing elements kept in their
original order (sort is stable per ECMA-262). -/
def jsSortBy {α : Type} (cmp : α → α → Int) (l : List α) : List α :=
  stableSorted (fun a b => decide (cmp a b < 0)) l

/-- JavaScript assignment this._elements[i] = x on the defined prefix:
overwrite the slot when it exists, extend the prefix when i is the first
hole (the only positions the source writes to). -/
def jsWrite {α : Type} (l : List α) (i : Nat) (x : α) : List α :=
  if i < l.length then l.set i x else l ++ [x]

/-- The copyWithin(i, i + 1, count) of SortVector.delete (line 258): slots
i .. count-2 take the values of their right neighbours, slot count-1 keeps
its old value (the stale copy), and slots from count-1 on are unchanged. -/
def copyWithinDel {α : Type} (l : List α) (i count : Nat) : List α :=
  l.take i ++ (l.drop (i + 1)).take (count - 1 - i) ++ l.drop (count - 1)

/-- First index of a ===-equal element in a list, if any. -/
def firstIdx {α : Type} [DecidableEq α] (el : α) : List α → Option Nat
  | [] => none
  | y :: ys => if y = el then some 0 else (firstIdx el ys).map (· + 1)

/-- Embedding of SortVector.delete (lines 255-264): scan the live region
for the first ===-equal slot; when found, shift the following live slots
left with copyWithin (leaving a stale copy at the old end of the live
region) and decrement the count; otherwise return false unchanged. -/
def SortVector.delete {α : Type} [DecidableEq α] (v : SortVector α)
    (el : α) : Bool × SortVector α :=
  match firstIdx el v.elements with
  | none => (false, v)
  | some i => (true, ⟨copyWithinDel v.backing i v.count, v.count - 1, v.cmp⟩)

/-- Embedding of SortVector.find (the binary-search loop of the unnamed
SortVector file, lines 205-232): native <, > and === comparisons against the
probed element, returning the index, or none where the code throws its
RangeError. -/
def findGo {α : Type} [LinearOrder α] (el : α) (xs : List α)
    (startI endI : Int) : Option Nat :=
  if startI ≤ endI then
    let mid : Int := (startI + endI) / 2
    match xs.get? mid.toNat with
    | none => none
    | some t =>
      if el < t then findGo el xs startI (mid - 1)
      else if t < el then findGo el xs (mid + 1) endI
      else some mid.toNat
  else none
  termination_by (endI + 1 - startI).toNat
  decreasing_by
    · simp_wf
      omega
    · simp_wf
      omega

/-- SortVector.find: empty vectors throw (none); otherwise the binary-search
loop runs over live indices 0 .. _elementCount-1 of the backing storage. -/
def SortVector.find {α : Type} [LinearOrder α] (v : SortVector α) (el : α) :
    Option Nat :=
  if v.count = 0 then none
  else findGo el v.backing 0 (v.count - 1 : Nat)

/-- Embedding of SortVector.append (lines 194-203): write the element at
slot _elementCount, grow the count, sort the whole backing storage (stale
slots included) with the comparator, and return the cursor produced by
find. -/
def SortVector.append {α : Type} [LinearOrder α] [DecidableEq α]
    (v : SortVector α) (el : α) : SortVector α × Option Nat :=
  let v' : SortVector α :=
    ⟨jsSortBy v.cmp (jsWrite v.backing v.count el), v.count + 1, v.cmp⟩
  (v', v'.find el)

/-- Embedding of SortVector.insertAfter (lines 154-156): the position is
ignored and the call is delegated to append. -/
def SortVector.insertAfter {α : Type} [LinearOrder α] [DecidableEq α]
    (v : SortVector α) (_pos : Nat) (el : α) : SortVector α × Option Nat :=
  v.append el

/-- Embedding of SortVector.insertBefore (lines 158-160): the position is
ignored and the call is delegated to append. -/
def SortVector.insertBefore {α : Type} [LinearOrder α] [DecidableEq α]
    (v : SortVector α) (_pos : Nat) (el : α) : SortVector α × Option Nat :=
  v.append el

/-- The empty integer vector of the delete-then-append scenario, with the
numeric comparator (a, b) => a - b. -/
def cexEmpty : SortVector Int := ⟨[], 0, fun a b => a - b⟩

/-- The vector holding 1, 2, 3, built by three appends. -/
def cexFull : SortVector Int :=
  (((cexEmpty.append 1).1.append 2).1.append 3).1

/-- The same vector after delete(3) and delete(2): the live region is [1]
but the backing storage still holds the stale slots of 2 and 3. -/
def cexShrunk : SortVector Int :=
  ((cexFull.delete 3).2.delete 2).2

/-! ## Ordered index (AVL tree)

Modelled from the spec: the AVL-tree source (src/avl.ts) is not among the
provided source files — only its test suite is — so the ordered index is
modelled from the design document, sections 3 and 4.1: nodes hold one
element plus the sibling chain of equal-keyed elements in insertion order; a
balance indicator (the cached height) is kept within the AVL bound by single
or double rotations after every insertion or deletion; insertion descends by
the comparator and appends equal keys to the chain; deletion removes the
chain head (the oldest occurrence), swapping a two-child node with its
in-order predecessor. The tests use the identity key extractor, so elements
are compared directly. -/

/-- Modelled from the spec: a tree node of the ordered index (design document
section 3) — left child, the element, the insertion-ordered duplicate chain,
right child, and the cached height used as the balance indicator. -/
inductive AVL (α : Type) : Type where
  | leaf : AVL α
  | node (l : AVL α) (v : α) (ds : List α) (r : AVL α) (h : Nat) : AVL α

namespace AVL

/-- Cached height of a subtree (0 for the empty tree). -/
def ht {α : Type} : AVL α → Nat
  | .leaf => 0
  | .node _ _ _ _ h => h

/-- Build a node with a freshly computed height. -/
def mkN {α : Type} (l : AVL α) (v : α) (ds : List α) (r : AVL α) : AVL α :=
  .node l v ds r (max (ht l) (ht r) + 1)

/-- Ascending in-order traversal; a duplicate chain is emitted oldest
first, directly after its node's element. -/
def toList {α : Type} : AVL α → List α
  | .leaf => []
  | .node l v ds r _ => toList l ++ v :: ds ++ toList r

/-- Modelled from the spec: the single and double rotations of design
document section 4.1 — on a ±2 imbalance the appropriate left-left,
left-right, right-right or right-left restructuring is applied; otherwise
the node is rebuilt with a recomputed height. The impossible shapes (an
imbalance towards an empty child) rebuild the node unchanged. -/
def balance {α : Type} (l : AVL α) (v : α) (ds : List α) (r : AVL α) : AVL α :=
  if ht l = ht r + 2 then
    match l with
    | .leaf => mkN l v ds r
    | .node ll lv lds lr _ =>
      if ht lr ≤ ht ll then mkN ll lv lds (mkN lr v ds r)
      else
        match lr with
        | .leaf => mkN l v ds r
        | .node lrl lrv lrds lrr _ =>
          mkN (mkN ll lv lds lrl) lrv lrds (mkN lrr v ds r)
  else if ht r = ht l + 2 then
    match r with
    | .leaf => mkN l v ds r
    | .node rl rv rds rr _ =>
      if ht rl ≤ ht rr then mkN (mkN l v ds rl) rv rds rr
      else
        match rl with
        | .leaf => mkN l v ds r
        | .node rll rlv rlds rlr _ =>
          mkN (mkN l v ds rll) rlv rlds (mkN rlr rv rds rr)
  else mkN l v ds r

/-- Modelled from the spec: add(element) of design document section 4.1 —
descend by the comparator, chain an equal key onto the node's sibling chain
(insertion order preserved), and rebalance the search path. -/
def insert {α : Type} (lt : α → α → Bool) (x : α) : AVL α → AVL α
  | .leaf => .node .leaf x [] .leaf 1
  | .node l v ds r h =>
    if lt x v then balance (insert lt x l) v ds r
    else if lt v x then balance l v ds (insert lt x r)
    else .node l v (ds ++ [x]) r h

/-- The ordered index built by a sequence of add calls starting empty. -/
def fromList {α : Type} (lt : α → α → Bool) (els : List α) : AVL α :=
  els.foldl (fun t x => insert lt x t) .leaf

/-- The search-tree invariant of design document section 3: keys in the left
subtree strictly precede the node's key, keys in the right subtree strictly
follow it, and every chained duplicate is equivalent to the node's key. -/
def ordered {α : Type} (lt : α → α → Bool) : AVL α → Bool
  | .leaf => true
  | .node l v ds r _ =>
    ordered lt l && ordered lt r
      && (toList l).all (fun a => lt a v)
      && (toList r).all (fun b => lt v b)
      && ds.all (fun d => !lt d v && !lt v d)

/-- Remove the in-order last node (element and whole duplicate chain) of a
non-empty tree, rebalancing the path; used for two-child deletion. -/
def extractMax {α : Type} : AVL α → Option (AVL α × α × List α)
  | .leaf => none
  | .node l v ds .leaf _ => some (l, v, ds)
  | .node l v ds (.node rl rv rds rr rh) _ =>
    match extractMax (.node rl rv rds rr rh) with
    | none => some (l, v, ds)
    | some (r', mv, mds) => some (balance l v ds r', mv, mds)

/-- Modelled from the spec: delete(key) of design document section 4.1 —
descend by the comparator; at an equivalent node remove the chain head (the
oldest inserted occurrence), promoting the next chain entry if any,
otherwise unlinking the node (a two-child node is replaced by its in-order
predecessor, extracted from the left subtree); ancestors are rebalanced;
an absent key is a no-op returning false. -/
def delete {α : Type} (lt : α → α → Bool) (k : α) : AVL α → Bool × AVL α
  | .leaf => (false, .leaf)
  | .node l v ds r h =>
    if lt k v then
      let p := delete lt k l
      if p.1 then (true, balance p.2 v ds r) else (false, .node l v ds r h)
    else if lt v k then
      let p := delete lt k r
      if p.1 then (true, balance l v ds p.2) else (false, .node l v ds r h)
    else
      match ds with
      | d :: ds' => (true, .node l d ds' r h)
      | [] =>
        match extractMax l with
        | none => (true, r)
        | some (l', pv, pds) => (true, balance l' pv pds r)

/-- Modelled from the spec: the bound query the source calls lowerKey, with
the literal behavior fixed by the test scenarios (design document sections
4.1, 8 and 9): the least element that strictly follows the key, or none. -/
def lowerKey {α : Type} (lt : α → α → Bool) (k : α) : AVL α → Option α
  | .leaf => none
  | .node l v _ r _ =>
    if lt k v then
      match lowerKey lt k l with
      | some w => some w
      | none => some v
    else lowerKey lt k r

/-- Modelled from the spec: the bound query the source calls upperKey, with
the literal behavior fixed by the test scenarios (design document sections
4.1, 8 and 9): the greatest element that strictly precedes the key, or
none. -/
def upperKey {α : Type} (lt : α → α → Bool) (k : α) : AVL α → Option α
  | .leaf => none
  | .node l v _ r _ =>
    if lt v k then
      match upperKey lt k r with
      | some w => some w
      | none => some v
    else upperKey lt k l

end AVL

/-- Equivalence under a comparator: neither key precedes the other. -/
def eqv {α : Type} (lt : α → α → Bool) (a b : α) : Bool := !lt a b && !lt b a

/-- Remove the first element equivalent to the key, if any: the list-level
specification of single-occurrence deletion (the first equivalent element of
the ascending traversal is the oldest inserted one). -/
def eraseEquiv {α : Type} (lt : α → α → Bool) (k : α) : List α → List α
  | [] => []
  | y :: ys => if eqv lt k y then ys else y :: eraseEquiv lt k ys

/-- Whether the list holds an element equivalent to the key. -/
def anyEquiv {α : Type} (lt : α → α → Bool) (k : α) (l : List α) : Bool :=
  l.any (fun y => eqv lt k y)

/-! ## Multi-index container

Modelled from the spec: the container source (src/mi.ts) is not among the
provided source files — only its test suite and one register call are — so
the fan-out protocol is modelled from design document sections 4.3 and 7:
every index holds the same element set; add/append inserts into the primary
(first) index, then into every secondary in registration order; a uniqueness
violation in a secondary rolls back the insertions already performed
(including the primary) and fails the whole call; deletion removes the
element from every index. Each index is modelled by its observable traversal
sequence: a sequential index appends, a hashed index appends (iteration
order is unspecified; membership is what matters) and rejects a duplicate
key when configured unique, an ordered index inserts stably by its
comparator over its extracted key. -/

/-- Modelled from the spec: an index descriptor of design document section 3
(the direction of an ordered index is folded into its comparator). -/
inductive IndexKind (ε κ : Type) : Type where
  | seq : IndexKind ε κ
  | hashed (key : ε → κ) (unique : Bool) : IndexKind ε κ
  | ordered (key : ε → κ) (klt : κ → κ → Bool) : IndexKind ε κ

/-- Insertion of one element into one index; none signals the hashed index's
UniquenessViolation. -/
def insIndex {ε κ : Type} [DecidableEq κ] :
    IndexKind ε κ → List ε → ε → Option (List ε)
  | .seq, c, x => some (c ++ [x])
  | .hashed key unique, c, x =>
    if unique && c.any (fun y => key y = key x) then none
    else some (c ++ [x])
  | .ordered key klt, c, x =>
    some (sIns (fun a b => klt (key a) (key b)) x c)

/-- Removal of one element from one index (the element is referenced, not
copied, so the first occurrence is the reference). -/
def delIndex {ε : Type} [DecidableEq ε] (c : List ε) (x : ε) : List ε :=
  c.erase x

/-- Modelled from the spec: the fan-out of one add/append over the index
list (primary first), with the rollback protocol of design document section
4.3 — on a rejection, every insertion already performed is undone and the
failure is re-signalled (the Boolean result is false). -/
def fanout {ε κ : Type} [DecidableEq ε] [DecidableEq κ] (x : ε) :
    List (IndexKind ε κ × List ε) → List (IndexKind ε κ × List ε) × Bool
  | [] => ([], true)
  | (d, c) :: rest =>
    match insIndex d c x with
    | none => ((d, c) :: rest, false)
    | some c' =>
      let p := fanout x rest
      if p.2 then ((d, c') :: p.1, true)
      else ((d, delIndex c' x) :: p.1, false)

/-- Modelled from the spec: deleteAt/delete of design document section 4.3 —
the element is removed from every registered index. -/
def delEverywhere {ε κ : Type} [DecidableEq ε] (x : ε)
    (st : List (IndexKind ε κ × List ε)) : List (IndexKind ε κ × List ε) :=
  st.map (fun p => (p.1, delIndex p.2 x))

/-- The empty container for a configuration list. -/
def miEmpty {ε κ : Type} (cfg : List (IndexKind ε κ)) :
    List (IndexKind ε κ × List ε) :=
  cfg.map (fun d => (d, []))

/-- Position of an element inside one index's traversal. -/
def posIn {ε : Type} [DecidableEq ε] (x : ε) : List ε → Option Nat
  | [] => none
  | y :: ys =>
    if y = x then some 0
    else (posIn x ys).map (· + 1)

/-- Composite-cursor step: the element's successor in the named index's own
traversal order. -/
def nextIn {ε : Type} [DecidableEq ε] (c : List ε) (x : ε) : Option ε :=
  match posIn x c with
  | none => none
  | some i => c.get? (i + 1)

/-- Composite-cursor step: the element's predecessor in the named index's
own traversal order. -/
def prevIn {ε : Type} [DecidableEq ε] (c : List ε) (x : ε) : Option ε :=
  match posIn x c with
  | none => none
  | some i => if i = 0 then none else c.get? (i - 1)

/-- Hashed-index find(key): some element with the key, if any. -/
def findByKey {ε κ : Type} [DecidableEq κ] (key : ε → κ) (k : κ)
    (c : List ε) : Option ε :=
  c.find? (fun y => key y = k)

/-! ## The README scenario (src/test/mi.ts, lines 114-150) -/

/-- The employee record of the README example. -/
structure Employee where
  id : Nat
  name : String
  age : Nat
  salary : Nat
deriving DecidableEq, Repr

/-- Keys used by the README container: numbers or strings. -/
inductive EKey : Type where
  | n (v : Nat) : EKey
  | s (v : String) : EKey
deriving DecidableEq, Repr

/-- Ascending numeric key order. -/
def ekLt : EKey → EKey → Bool
  | .n a, .n b => a < b
  | _, _ => false

/-- Descending numeric key order (the reverse() direction). -/
def ekGt : EKey → EKey → Bool
  | .n a, .n b => b < a
  | _, _ => false

/-- The README configuration: sequential primary, hashed unique id, hashed
name, ordered age, ordered salary descending. -/
def readmeCfg : List (IndexKind Employee EKey) :=
  [ .seq,
    .hashed (fun e => .n e.id) true,
    .hashed (fun e => .s e.name) false,
    .ordered (fun e => .n e.age) ekLt,
    .ordered (fun e => .n e.salary) ekGt ]

def bob : Employee := ⟨3, "Bob", 32, 1800⟩

def jane : Employee := ⟨1, "Jane", 45, 3000⟩

def fred : Employee := ⟨2, "Fred", 21, 2500⟩

/-- The container state after the three appends of the README example. -/
def readmeState : List (IndexKind Employee EKey × List Employee) :=
  (fanout fred (fanout jane (fanout bob (miEmpty readmeCfg)).1).1).1

/-- The traversal sequence of the index at the given registration position. -/
def contentsAt {ε κ : Type} (st : List (IndexKind ε κ × List ε)) (i : Nat) :
    List ε :=
  ((st.get? i).map Prod.snd).getD []

end Scl

namespace Scl

/-! ## Theorems -/

theorem IsSWO.asymm {α : Type} {lt : α → α → Bool} (h : IsSWO lt)
    (a b : α) (hab : lt a b = true) : lt b a = false := by
  by_contra hba
  have hba' : lt b a = true := by
    cases hv : lt b a with
    | false => exact absurd hv hba
    | true => rfl
  have := h.trans a b a hab hba'
  rw [h.irrefl a] at this
  exact Bool.false_ne_true this

theorem sIns_perm {α : Type} (lt : α → α → Bool) (x : α) (l : List α) :
    (sIns lt x l).Perm (x :: l) := by
  induction l with
  | nil => simp [sIns]
  | cons y ys ih =>
    simp only [sIns]
    by_cases h : lt x y = true
    · simp [h]
    · simp only [Bool.not_eq_true] at h
      simp only [h, Bool.false_eq_true, if_false]
      exact (ih.cons y).trans (List.Perm.swap x y ys)

theorem stableSorted_perm {α : Type} (lt : α → α → Bool) (els : List α) :
    (stableSorted lt els).Perm els := by
  suffices h : ∀ acc : List α,
      (els.foldl (fun acc x => sIns lt x acc) acc).Perm (els.reverse ++ acc) by
    have h0 := h []
    simp only [List.append_nil] at h0
    simpa [stableSorted] using h0.trans (List.reverse_perm els)
  induction els with
  | nil => intro acc; simp
  | cons e es ih =>
    intro acc
    simp only [List.foldl_cons, List.reverse_cons, List.append_assoc, List.singleton_append]
    exact (ih (sIns lt e acc)).trans
      (List.Perm.append_left es.reverse (sIns_perm lt e acc))

theorem sIns_mem {α : Type} (lt : α → α → Bool) (x a : α) (l : List α) :
    a ∈ sIns lt x l ↔ a = x ∨ a ∈ l := by
  constructor
  · intro h
    have := (sIns_perm lt x l).mem_iff.mp h
    simpa using this
  · intro h
    apply (sIns_perm lt x l).mem_iff.mpr
    simpa using h

/-- If some element of the prefix strictly follows the inserted element, the
insertion happens inside the prefix. -/
theorem sIns_append_of_found {α : Type} (lt : α → α → Bool) (x : α)
    (A C : List α) (h : ∃ a ∈ A, lt x a = true) :
    sIns lt x (A ++ C) = sIns lt x A ++ C := by
  induction A with
  | nil => simp at h
  | cons y ys ih =>
    simp only [List.cons_append, sIns]
    by_cases hy : lt x y = true
    · simp [hy]
    · simp only [Bool.not_eq_true] at hy
      simp only [hy, Bool.false_eq_true, if_false, List.cons_append, List.cons.injEq, true_and]
      apply ih
      rcases h with ⟨a, ha, hlt⟩
      rcases List.mem_cons.mp ha with rfl | ha'
      · rw [hy] at hlt; exact absurd hlt Bool.false_ne_true
      · exact ⟨a, ha', hlt⟩

/-- If no element of the prefix strictly follows the inserted element, the
insertion skips the whole prefix. -/
theorem sIns_append_of_none {α : Type} (lt : α → α → Bool) (x : α)
    (A C : List α) (h : ∀ a ∈ A, lt x a = false) :
    sIns lt x (A ++ C) = A ++ sIns lt x C := by
  induction A with
  | nil => simp
  | cons y ys ih =>
    have hy := h y (List.mem_cons_self y ys)
    simp only [List.cons_append, sIns, hy, Bool.false_eq_true, if_false, List.append_eq]
    rw [ih (fun a ha => h a (List.mem_cons_of_mem y ha))]

theorem sIns_all_none {α : Type} (lt : α → α → Bool) (x : α)
    (A : List α) (h : ∀ a ∈ A, lt x a = false) :
    sIns lt x A = A ++ [x] := by
  have := sIns_append_of_none lt x A [] h
  simpa [sIns] using this

theorem sIns_pairwise {α : Type} {lt : α → α → Bool} (hswo : IsSWO lt)
    (x : α) (l : List α) (h : l.Pairwise (fun a b => lt b a = false)) :
    (sIns lt x l).Pairwise (fun a b => lt b a = false) := by
  induction l with
  | nil => simpa [sIns] using List.pairwise_singleton _ x
  | cons y ys ih =>
    rcases List.pairwise_cons.mp h with ⟨hy, hys⟩
    simp only [sIns]
    by_cases hxy : lt x y = true
    · simp only [hxy, if_true]
      refine List.pairwise_cons.mpr ⟨?_, h⟩
      intro w hw
      rcases List.mem_cons.mp hw with rfl | hw'
      · exact hswo.asymm x w hxy
      · cases hv : lt w x with
        | false => rfl
        | true =>
          have := hswo.trans w x y hv hxy
          rw [hy w hw'] at this
          exact absurd this Bool.false_ne_true
    · simp only [Bool.not_eq_true] at hxy
      simp only [hxy, Bool.false_eq_true, if_false]
      refine List.pairwise_cons.mpr ⟨?_, ih hys⟩
      intro w hw
      rcases (sIns_mem lt x w ys).mp hw with rfl | hw'
      · exact hxy
      · exact hy w hw'

theorem stableSorted_pairwise {α : Type} {lt : α → α → Bool} (hswo : IsSWO lt)
    (els : List α) :
    (stableSorted lt els).Pairwise (fun a b => lt b a = false) := by
  suffices h : ∀ acc : List α, acc.Pairwise (fun a b => lt b a = false) →
      (els.foldl (fun acc x => sIns lt x acc) acc).Pairwise (fun a b => lt b a = false) by
    exact h [] List.Pairwise.nil
  induction els with
  | nil => intro acc hacc; simpa using hacc
  | cons e es ih =>
    intro acc hacc
    simp only [List.foldl_cons]
    exact ih (sIns lt e acc) (sIns_pairwise hswo e acc hacc)

/-- Rotations only re-associate the tree, so rebalancing a node preserves
its in-order traversal. -/
theorem toList_balance {α : Type} (l : AVL α) (v : α) (ds : List α)
    (r : AVL α) :
    (AVL.balance l v ds r).toList = l.toList ++ v :: (ds ++ r.toList) := by
  unfold AVL.balance
  repeat' split
  all_goals simp [AVL.mkN, AVL.toList, List.append_assoc]

theorem ordered_node_iff {α : Type} {lt : α → α → Bool} {l : AVL α} {v : α}
    {ds : List α} {r : AVL α} {hh : Nat} :
    AVL.ordered lt (AVL.node l v ds r hh) = true ↔
      AVL.ordered lt l = true ∧ AVL.ordered lt r = true ∧
      (∀ a ∈ l.toList, lt a v = true) ∧
      (∀ b ∈ r.toList, lt v b = true) ∧
      (∀ d ∈ ds, lt d v = false ∧ lt v d = false) := by
  simp [AVL.ordered, List.all_eq_true, Bool.and_eq_true, Bool.not_eq_true',
    and_assoc]

theorem ordered_mkN_iff {α : Type} {lt : α → α → Bool} {l : AVL α} {v : α}
    {ds : List α} {r : AVL α} :
    AVL.ordered lt (AVL.mkN l v ds r) = true ↔
      AVL.ordered lt l = true ∧ AVL.ordered lt r = true ∧
      (∀ a ∈ l.toList, lt a v = true) ∧
      (∀ b ∈ r.toList, lt v b = true) ∧
      (∀ d ∈ ds, lt d v = false ∧ lt v d = false) := by
  rw [AVL.mkN, ordered_node_iff]

theorem mem_toList_node {α : Type} {l : AVL α} {v : α} {ds : List α}
    {r : AVL α} {hh : Nat} {a : α} :
    a ∈ (AVL.node l v ds r hh).toList ↔
      a ∈ l.toList ∨ a = v ∨ a ∈ ds ∨ a ∈ r.toList := by
  simp [AVL.toList, List.mem_append, List.mem_cons]

/-- Rebalancing preserves the search-tree invariant: rotations only move
strictly-separated regions of the key space, and the strict weak ordering
axioms let the node-local bounds be re-derived for the rotated shape. -/
theorem ordered_balance {α : Type} {lt : α → α → Bool} (hswo : IsSWO lt)
    (l : AVL α) (v : α) (ds : List α) (r : AVL α)
    (h1 : AVL.ordered lt l = true) (h2 : AVL.ordered lt r = true)
    (h3 : ∀ a ∈ l.toList, lt a v = true)
    (h4 : ∀ b ∈ r.toList, lt v b = true)
    (h5 : ∀ d ∈ ds, lt d v = false ∧ lt v d = false) :
    AVL.ordered lt (AVL.balance l v ds r) = true := by
  have base : AVL.ordered lt (AVL.mkN l v ds r) = true :=
    ordered_mkN_iff.mpr ⟨h1, h2, h3, h4, h5⟩
  unfold AVL.balance
  split
  · -- left-heavy
    split
    · exact base
    · rename_i ll lv lds lr hl hc1
      rw [ordered_node_iff] at h1
      obtain ⟨o_ll, o_lr, b_ll, b_lr, e_lds⟩ := h1
      have hlv_v : lt lv v = true := h3 lv (mem_toList_node.mpr (Or.inr (Or.inl rfl)))
      have h3lr : ∀ a ∈ lr.toList, lt a v = true := fun a ha =>
        h3 a (mem_toList_node.mpr (Or.inr (Or.inr (Or.inr ha))))
      split
      · -- left-left single rotation
        rw [ordered_mkN_iff]
        refine ⟨o_ll, ?_, b_ll, ?_, e_lds⟩
        · exact ordered_mkN_iff.mpr ⟨o_lr, h2, h3lr, h4, h5⟩
        · intro b hb
          rw [AVL.mkN, mem_toList_node] at hb
          rcases hb with hb | rfl | hb | hb
          · exact b_lr b hb
          · exact hlv_v
          · have hd := h5 b hb
            rw [hswo.consistR b v lv hd.1 hd.2]
            exact hlv_v
          · exact hswo.trans lv v b hlv_v (h4 b hb)
      · split
        · exact base
        · -- left-right double rotation
          rename_i lrl lrv lrds lrr hlr hc2
          rw [ordered_node_iff] at o_lr
          obtain ⟨o_lrl, o_lrr, b_lrl, b_lrr, e_lrds⟩ := o_lr
          have hlv_lrv : lt lv lrv = true :=
            b_lr lrv (mem_toList_node.mpr (Or.inr (Or.inl rfl)))
          have hlrv_v : lt lrv v = true :=
            h3lr lrv (mem_toList_node.mpr (Or.inr (Or.inl rfl)))
          rw [ordered_mkN_iff]
          refine ⟨?_, ?_, ?_, ?_, e_lrds⟩
          · refine ordered_mkN_iff.mpr ⟨o_ll, o_lrl, b_ll, ?_, e_lds⟩
            intro b hb
            exact b_lr b (mem_toList_node.mpr (Or.inl hb))
          · refine ordered_mkN_iff.mpr ⟨o_lrr, h2, ?_, h4, h5⟩
            intro a ha
            exact h3lr a (mem_toList_node.mpr (Or.inr (Or.inr (Or.inr ha))))
          · intro a ha
            rw [AVL.mkN, mem_toList_node] at ha
            rcases ha with ha | rfl | ha | ha
            · exact hswo.trans a lv lrv (b_ll a ha) hlv_lrv
            · exact hlv_lrv
            · have hd := e_lds a ha
              rw [hswo.consistL a lv lrv hd.1 hd.2]
              exact hlv_lrv
            · exact b_lrl a ha
          · intro b hb
            rw [AVL.mkN, mem_toList_node] at hb
            rcases hb with hb | rfl | hb | hb
            · exact b_lrr b hb
            · exact hlrv_v
            · have hd := h5 b hb
              rw [hswo.consistR b v lrv hd.1 hd.2]
              exact hlrv_v
            · exact hswo.trans lrv v b hlrv_v (h4 b hb)
  · split
    · -- right-heavy
      split
      · exact base
      · rename_i rl rv rds rr hr hc3 hc3b
        rw [ordered_node_iff] at h2
        obtain ⟨o_rl, o_rr, b_rl, b_rr, e_rds⟩ := h2
        have hv_rv : lt v rv = true := h4 rv (mem_toList_node.mpr (Or.inr (Or.inl rfl)))
        have h4rl : ∀ b ∈ rl.toList, lt v b = true := fun b hb =>
          h4 b (mem_toList_node.mpr (Or.inl hb))
        split
        · -- right-right single rotation
          rw [ordered_mkN_iff]
          refine ⟨?_, o_rr, ?_, b_rr, e_rds⟩
          · exact ordered_mkN_iff.mpr ⟨h1, o_rl, h3, h4rl, h5⟩
          · intro a ha
            rw [AVL.mkN, mem_toList_node] at ha
            rcases ha with ha | rfl | ha | ha
            · exact hswo.trans a v rv (h3 a ha) hv_rv
            · exact hv_rv
            · have hd := h5 a ha
              rw [hswo.consistL a v rv hd.1 hd.2]
              exact hv_rv
            · exact b_rl a ha
        · split
          · exact base
          · -- right-left double rotation
            rename_i rll rlv rlds rlr hrl hc4
            rw [ordered_node_iff] at o_rl
            obtain ⟨o_rll, o_rlr, b_rll, b_rlr, e_rlds⟩ := o_rl
            have hrlv_rv : lt rlv rv = true :=
              b_rl rlv (mem_toList_node.mpr (Or.inr (Or.inl rfl)))
            have hv_rlv : lt v rlv = true :=
              h4rl rlv (mem_toList_node.mpr (Or.inr (Or.inl rfl)))
            rw [ordered_mkN_iff]
            refine ⟨?_, ?_, ?_, ?_, e_rlds⟩
            · refine ordered_mkN_iff.mpr ⟨h1, o_rll, h3, ?_, h5⟩
              intro b hb
              exact h4rl b (mem_toList_node.mpr (Or.inl hb))
            · refine ordered_mkN_iff.mpr ⟨o_rlr, o_rr, ?_, b_rr, e_rds⟩
              intro a ha
              exact b_rl a (mem_toList_node.mpr (Or.inr (Or.inr (Or.inr ha))))
            · intro a ha
              rw [AVL.mkN, mem_toList_node] at ha
              rcases ha with ha | rfl | ha | ha
              · exact hswo.trans a v rlv (h3 a ha) hv_rlv
              · exact hv_rlv
              · have hd := h5 a ha
                rw [hswo.consistL a v rlv hd.1 hd.2]
                exact hv_rlv
              · exact b_rll a ha
            · intro b hb
              rw [AVL.mkN, mem_toList_node] at hb
              rcases hb with hb | rfl | hb | hb
              · exact b_rlr b hb
              · exact hrlv_rv
              · have hd := e_rds b hb
                rw [hswo.consistR b rv rlv hd.1 hd.2]
                exact hrlv_rv
              · exact hswo.trans rlv rv b hrlv_rv (b_rr b hb)
    · exact base

/-- Inserting into an ordered tree inserts stably into its in-order
traversal: the new element lands after every element it does not strictly
precede and before the first element it strictly precedes. -/
theorem toList_insert {α : Type} {lt : α → α → Bool} (hswo : IsSWO lt)
    (x : α) (t : AVL α) (ho : AVL.ordered lt t = true) :
    (AVL.insert lt x t).toList = sIns lt x t.toList := by
  induction t with
  | leaf => simp [AVL.insert, AVL.toList, sIns]
  | node l v ds r hh ihl ihr =>
    rw [ordered_node_iff] at ho
    obtain ⟨h1, h2, h3, h4, h5⟩ := ho
    simp only [AVL.insert]
    by_cases hxv : lt x v = true
    · simp only [hxv, if_true]
      rw [toList_balance, ihl h1]
      simp only [AVL.toList, List.append_assoc, List.cons_append]
      by_cases hex : ∃ a ∈ l.toList, lt x a = true
      · rw [sIns_append_of_found lt x _ _ hex]
      · push_neg at hex
        have hall : ∀ a ∈ l.toList, lt x a = false := fun a ha => by
          simpa using hex a ha
        rw [sIns_append_of_none lt x _ _ hall, sIns_all_none lt x _ hall]
        simp [sIns, hxv, List.append_assoc]
    · have hxv' : lt x v = false := by simpa using hxv
      have hpre : ∀ a ∈ l.toList ++ v :: ds, lt x a = false := by
        intro a ha
        rcases List.mem_append.mp ha with ha | ha
        · cases hv2 : lt x a with
          | false => rfl
          | true =>
            have hc := hswo.trans x a v hv2 (h3 a ha)
            rw [hxv'] at hc
            exact absurd hc Bool.false_ne_true
        · rcases List.mem_cons.mp ha with rfl | ha
          · exact hxv'
          · have hd := h5 a ha
            rw [hswo.consistR a v x hd.1 hd.2]
            exact hxv'
      have hsplit : sIns lt x (l.toList ++ v :: (ds ++ r.toList))
          = (l.toList ++ v :: ds) ++ sIns lt x r.toList := by
        have hs := sIns_append_of_none lt x (l.toList ++ v :: ds) r.toList hpre
        simpa [List.append_assoc] using hs
      by_cases hvx : lt v x = true
      · simp only [hxv', hvx, Bool.false_eq_true, if_false, if_true]
        rw [toList_balance, ihr h2]
        simp only [AVL.toList, List.append_assoc, List.cons_append]
        rw [hsplit]
        simp [List.append_assoc]
      · have hvx' : lt v x = false := by simpa using hvx
        simp only [hxv', hvx', Bool.false_eq_true, if_false]
        have hr : sIns lt x r.toList = x :: r.toList := by
          cases hrl : r.toList with
          | nil => simp [sIns]
          | cons z zs =>
            have hz : lt v z = true := h4 z (by rw [hrl]; exact List.mem_cons_self z zs)
            have hxz : lt x z = true := by
              rw [hswo.consistL x v z hxv' hvx']
              exact hz
            simp [sIns, hxz]
        simp only [AVL.toList, List.append_assoc, List.cons_append]
        rw [hsplit, hr]
        simp [List.append_assoc]

/-- Insertion preserves the search-tree invariant. -/
theorem ordered_insert {α : Type} {lt : α → α → Bool} (hswo : IsSWO lt)
    (x : α) (t : AVL α) (ho : AVL.ordered lt t = true) :
    AVL.ordered lt (AVL.insert lt x t) = true := by
  induction t with
  | leaf => simp [AVL.insert, AVL.ordered, AVL.toList]
  | node l v ds r hh ihl ihr =>
    rw [ordered_node_iff] at ho
    obtain ⟨h1, h2, h3, h4, h5⟩ := ho
    simp only [AVL.insert]
    by_cases hxv : lt x v = true
    · simp only [hxv, if_true]
      refine ordered_balance hswo _ v ds r (ihl h1) h2 ?_ h4 h5
      intro a ha
      rw [toList_insert hswo x l h1] at ha
      rcases (sIns_mem lt x a l.toList).mp ha with rfl | ha
      · exact hxv
      · exact h3 a ha
    · have hxv' : lt x v = false := by simpa using hxv
      by_cases hvx : lt v x = true
      · simp only [hxv', hvx, Bool.false_eq_true, if_false, if_true]
        refine ordered_balance hswo l v ds _ h1 (ihr h2) h3 ?_ h5
        intro b hb
        rw [toList_insert hswo x r h2] at hb
        rcases (sIns_mem lt x b r.toList).mp hb with rfl | hb
        · exact hvx
        · exact h4 b hb
      · have hvx' : lt v x = false := by simpa using hvx
        simp only [hxv', hvx', Bool.false_eq_true, if_false]
        rw [ordered_node_iff]
        refine ⟨h1, h2, h3, h4, ?_⟩
        intro d hd
        rcases List.mem_append.mp hd with hd | hd
        · exact h5 d hd
        · rcases List.mem_singleton.mp hd with rfl
          exact ⟨hxv', hvx'⟩

/-- Folding a sequence of inserts over an ordered tree keeps it ordered and
performs the corresponding stable insertions on the traversal. -/
theorem fromList_aux {α : Type} {lt : α → α → Bool} (hswo : IsSWO lt)
    (els : List α) :
    ∀ t : AVL α, AVL.ordered lt t = true →
      AVL.ordered lt (els.foldl (fun t x => AVL.insert lt x t) t) = true ∧
      (els.foldl (fun t x => AVL.insert lt x t) t).toList
        = els.foldl (fun acc x => sIns lt x acc) t.toList := by
  induction els with
  | nil => intro t ht; exact ⟨ht, rfl⟩
  | cons e es ih =>
    intro t ht
    simp only [List.foldl_cons]
    have h1 := ordered_insert hswo e t ht
    have h2 := ih (AVL.insert lt e t) h1
    exact ⟨h2.1, by rw [h2.2, toList_insert hswo e t ht]⟩

/-- Every tree built by a sequence of adds satisfies the search-tree
invariant. -/
theorem fromList_ordered {α : Type} {lt : α → α → Bool} (hswo : IsSWO lt)
    (els : List α) : AVL.ordered lt (AVL.fromList lt els) = true :=
  (fromList_aux hswo els AVL.leaf rfl).1

/-- C1: for every sequence of add calls on the ordered index with a
comparator satisfying the documented strict-weak-ordering contract, the
ascending traversal is exactly the stable sort of the inserted multiset: it
equals the stable insertion sort, it is a permutation of the inserted
elements, and it is sorted by the comparator (no later element strictly
precedes an earlier one; stable insertion keeps equivalent keys in
insertion order). -/
theorem avl_ascending_traversal_is_stable_sort {α : Type}
    {lt : α → α → Bool} (hswo : IsSWO lt) (els : List α) :
    (AVL.fromList lt els).toList = stableSorted lt els ∧
    ((AVL.fromList lt els).toList).Perm els ∧
    ((AVL.fromList lt els).toList).Pairwise (fun a b => lt b a = false) := by
  have h := (fromList_aux hswo els AVL.leaf rfl).2
  have heq : (AVL.fromList lt els).toList = stableSorted lt els := by
    simpa [AVL.fromList, stableSorted, AVL.toList] using h
  refine ⟨heq, ?_, ?_⟩
  · rw [heq]; exact stableSorted_perm lt els
  · rw [heq]; exact stableSorted_pairwise hswo els

/-- The numeric comparator of the test scenarios is a strict weak
ordering. -/
theorem natLt_isSWO : IsSWO natLt := by
  refine ⟨?_, ?_, ?_, ?_⟩
  · intro a; simp [natLt]
  · intro a b c h1 h2
    simp only [natLt, decide_eq_true_eq] at *
    omega
  · intro a b c h1 h2
    simp only [natLt, decide_eq_false_iff_not] at h1 h2
    have : a = b := by omega
    rw [this]
  · intro a b c h1 h2
    simp only [natLt, decide_eq_false_iff_not] at h1 h2
    have : a = b := by omega
    rw [this]

/-- Witness for C1: the two fixed insertion scenarios evaluated through the
general theorem at the numeric comparator. -/
theorem avl_ascending_traversal_is_stable_sort_witness :
    IsSWO natLt ∧
    (AVL.fromList natLt [1, 5, 2, 3, 4]).toList = [1, 2, 3, 4, 5] ∧
    (AVL.fromList natLt [1, 5, 2, 3, 3, 3, 4]).toList = [1, 2, 3, 3, 3, 4, 5] := by
  refine ⟨natLt_isSWO, ?_, ?_⟩
  · rw [(avl_ascending_traversal_is_stable_sort natLt_isSWO [1, 5, 2, 3, 4]).1]
    decide
  · rw [(avl_ascending_traversal_is_stable_sort natLt_isSWO
      [1, 5, 2, 3, 3, 3, 4]).1]
    decide

theorem eraseEquiv_cons_of_ne {α : Type} {lt : α → α → Bool} {k y : α}
    (ys : List α) (h : eqv lt k y = false) :
    eraseEquiv lt k (y :: ys) = y :: eraseEquiv lt k ys := by
  simp [eraseEquiv, h]

theorem eraseEquiv_cons_of_eqv {α : Type} {lt : α → α → Bool} {k y : α}
    (ys : List α) (h : eqv lt k y = true) :
    eraseEquiv lt k (y :: ys) = ys := by
  simp [eraseEquiv, h]

theorem eraseEquiv_append_of_none {α : Type} {lt : α → α → Bool} {k : α}
    (A B : List α) (h : ∀ a ∈ A, eqv lt k a = false) :
    eraseEquiv lt k (A ++ B) = A ++ eraseEquiv lt k B := by
  induction A with
  | nil => simp
  | cons y ys ih =>
    have hy := h y (List.mem_cons_self y ys)
    simp only [List.cons_append]
    rw [eraseEquiv_cons_of_ne _ hy, ih (fun a ha => h a (List.mem_cons_of_mem y ha))]

theorem eraseEquiv_append_of_found {α : Type} {lt : α → α → Bool} {k : α}
    (A B : List α) (h : ∃ a ∈ A, eqv lt k a = true) :
    eraseEquiv lt k (A ++ B) = eraseEquiv lt k A ++ B := by
  induction A with
  | nil => simp at h
  | cons y ys ih =>
    simp only [List.cons_append]
    by_cases hy : eqv lt k y = true
    · rw [eraseEquiv_cons_of_eqv _ hy, eraseEquiv_cons_of_eqv _ hy]
    · have hy' : eqv lt k y = false := by simpa using hy
      rw [eraseEquiv_cons_of_ne _ hy', eraseEquiv_cons_of_ne _ hy', List.cons_append]
      congr 1
      apply ih
      rcases h with ⟨a, ha, heqv⟩
      rcases List.mem_cons.mp ha with rfl | ha'
      · rw [hy'] at heqv; exact absurd heqv Bool.false_ne_true
      · exact ⟨a, ha', heqv⟩

theorem eraseEquiv_noop {α : Type} {lt : α → α → Bool} {k : α}
    (l : List α) (h : ∀ a ∈ l, eqv lt k a = false) :
    eraseEquiv lt k l = l := by
  have he := eraseEquiv_append_of_none l [] h
  simpa [eraseEquiv] using he

theorem anyEquiv_eq_false {α : Type} {lt : α → α → Bool} {k : α}
    (l : List α) (h : ∀ a ∈ l, eqv lt k a = false) :
    anyEquiv lt k l = false := by
  simp only [anyEquiv, List.any_eq_false]
  intro a ha
  simp [h a ha]

theorem extractMax_none_iff {α : Type} (t : AVL α) :
    AVL.extractMax t = none ↔ t = AVL.leaf := by
  cases t with
  | leaf => simp [AVL.extractMax]
  | node l v ds r hh =>
    cases r with
    | leaf => simp [AVL.extractMax]
    | node rl rv rds rr rh =>
      rw [AVL.extractMax]
      constructor
      · intro h
        split at h <;> cases h
      · intro h; cases h

/-- Extracting the in-order maximum splits the traversal at its last
node. -/
theorem extractMax_toList {α : Type} (t : AVL α) :
    ∀ t' : AVL α, ∀ mv : α, ∀ mds : List α,
      AVL.extractMax t = some (t', mv, mds) →
      t.toList = t'.toList ++ mv :: mds := by
  induction t with
  | leaf => intro t' mv mds h; simp [AVL.extractMax] at h
  | node l v ds r hh ihl ihr =>
    intro t' mv mds h
    cases r with
    | leaf =>
      rw [AVL.extractMax] at h
      cases h
      simp [AVL.toList]
    | node rl rv rds rr rh =>
      rw [AVL.extractMax] at h
      cases hm : AVL.extractMax (AVL.node rl rv rds rr rh) with
      | none => rw [extractMax_none_iff] at hm; cases hm
      | some p =>
        rw [hm] at h
        rcases p with ⟨r', mv', mds'⟩
        cases h
        have hr := ihr r' mv mds hm
        simp only [AVL.toList, toList_balance, List.append_assoc, List.cons_append] at hr ⊢
        rw [hr]

/-- C3: on every ordered index and key, delete(k) returns whether an
element with an equivalent key is present and removes exactly the first
equivalent element of the ascending traversal — the oldest-inserted
occurrence, since chains keep insertion order — leaving all remaining
elements in place (hence still sorted); an absent key returns false and
leaves the tree entirely unchanged. -/
theorem avl_delete_removes_oldest_equivalent {α : Type} {lt : α → α → Bool}
    (hswo : IsSWO lt) (k : α) (t : AVL α) (ho : AVL.ordered lt t = true) :
    (AVL.delete lt k t).1 = anyEquiv lt k t.toList ∧
    (AVL.delete lt k t).2.toList = eraseEquiv lt k t.toList ∧
    ((AVL.delete lt k t).1 = false → (AVL.delete lt k t).2 = t) := by
  induction t with
  | leaf =>
    refine ⟨?_, ?_, ?_⟩ <;> simp [AVL.delete, AVL.toList, anyEquiv, eraseEquiv]
  | node l v ds r hh ihl ihr =>
    rw [ordered_node_iff] at ho
    obtain ⟨h1, h2, h3, h4, h5⟩ := ho
    have hTL : (AVL.node l v ds r hh).toList = l.toList ++ v :: (ds ++ r.toList) := by
      simp [AVL.toList, List.append_assoc]
    by_cases hkv : lt k v = true
    · -- the key strictly precedes the node: everything here and right is larger
      have hv : eqv lt k v = false := by simp [eqv, hkv]
      have hds : ∀ d ∈ ds, eqv lt k d = false := by
        intro d hd
        have he := h5 d hd
        have hkd : lt k d = true := by
          rw [hswo.consistR d v k he.1 he.2]; exact hkv
        simp [eqv, hkd]
      have hrn : ∀ b ∈ r.toList, eqv lt k b = false := by
        intro b hb
        have hkb : lt k b = true := hswo.trans k v b hkv (h4 b hb)
        simp [eqv, hkb]
      obtain ⟨ihf, ihe, ihu⟩ := ihl h1
      have hdsany : ds.any (fun y => eqv lt k y) = false := by
        simp only [List.any_eq_false]
        intro d hd; simp [hds d hd]
      have hrany : r.toList.any (fun y => eqv lt k y) = false := by
        simp only [List.any_eq_false]
        intro b hb; simp [hrn b hb]
      have hany : anyEquiv lt k (AVL.node l v ds r hh).toList
          = anyEquiv lt k l.toList := by
        rw [hTL]
        simp [anyEquiv, List.any_append, hv, hdsany, hrany]
      simp only [AVL.delete, hkv, if_true]
      cases hdl : (AVL.delete lt k l).1 with
      | true =>
        simp only [hdl, if_true]
        refine ⟨?_, ?_, ?_⟩
        · rw [hany, ← ihf, hdl]
        · rw [toList_balance, ihe, hTL]
          have hfound : ∃ a ∈ l.toList, eqv lt k a = true := by
            have hl : anyEquiv lt k l.toList = true := by rw [← ihf]; exact hdl
            simpa [anyEquiv, List.any_eq_true] using hl
          rw [eraseEquiv_append_of_found _ _ hfound]
        · intro hc; simp at hc
      | false =>
        simp only [hdl, Bool.false_eq_true, if_false]
        refine ⟨?_, ?_, by simp⟩
        · rw [hany, ← ihf, hdl]
        · have hnone : ∀ a ∈ l.toList, eqv lt k a = false := by
            have hl : anyEquiv lt k l.toList = false := by rw [← ihf]; exact hdl
            intro a ha
            have := List.any_eq_false.mp (by simpa [anyEquiv] using hl) a ha
            simpa using this
          rw [hTL, eraseEquiv_append_of_none _ _ hnone, eraseEquiv_cons_of_ne _ hv,
            eraseEquiv_append_of_none _ _ hds, eraseEquiv_noop _ hrn]
    · have hkv' : lt k v = false := by simpa using hkv
      by_cases hvk : lt v k = true
      · -- the key strictly follows the node: everything here and left is smaller
        have hv : eqv lt k v = false := by simp [eqv, hvk]
        have hln : ∀ a ∈ l.toList, eqv lt k a = false := by
          intro a ha
          have hak : lt a k = true := hswo.trans a v k (h3 a ha) hvk
          simp [eqv, hak]
        have hds : ∀ d ∈ ds, eqv lt k d = false := by
          intro d hd
          have he := h5 d hd
          have hdk : lt d k = true := by
            rw [hswo.consistL d v k he.1 he.2]; exact hvk
          simp [eqv, hdk]
        obtain ⟨ihf, ihe, ihu⟩ := ihr h2
        have hlany : l.toList.any (fun y => eqv lt k y) = false := by
          simp only [List.any_eq_false]
          intro a ha; simp [hln a ha]
        have hdsany : ds.any (fun y => eqv lt k y) = false := by
          simp only [List.any_eq_false]
          intro d hd; simp [hds d hd]
        have hany : anyEquiv lt k (AVL.node l v ds r hh).toList
            = anyEquiv lt k r.toList := by
          rw [hTL]
          simp [anyEquiv, List.any_append, hv, hlany, hdsany]
        simp only [AVL.delete, hkv', hvk, Bool.false_eq_true, if_false, if_true]
        cases hdr : (AVL.delete lt k r).1 with
        | true =>
          simp only [hdr, if_true]
          refine ⟨?_, ?_, ?_⟩
          · rw [hany, ← ihf, hdr]
          · rw [toList_balance, ihe, hTL,
              eraseEquiv_append_of_none _ _ hln, eraseEquiv_cons_of_ne _ hv,
              eraseEquiv_append_of_none _ _ hds]
          · intro hc; simp at hc
        | false =>
          simp only [hdr, Bool.false_eq_true, if_false]
          refine ⟨?_, ?_, by simp⟩
          · rw [hany, ← ihf, hdr]
          · have hrn : ∀ b ∈ r.toList, eqv lt k b = false := by
              have hl : anyEquiv lt k r.toList = false := by rw [← ihf]; exact hdr
              intro b hb
              have := List.any_eq_false.mp (by simpa [anyEquiv] using hl) b hb
              simpa using this
            rw [hTL, eraseEquiv_append_of_none _ _ hln, eraseEquiv_cons_of_ne _ hv,
              eraseEquiv_append_of_none _ _ hds, eraseEquiv_noop _ hrn]
      · -- the node's key is equivalent: the chain head is the oldest occurrence
        have hvk' : lt v k = false := by simpa using hvk
        have hv : eqv lt k v = true := by simp [eqv, hkv', hvk']
        have hln : ∀ a ∈ l.toList, eqv lt k a = false := by
          intro a ha
          have hc := hswo.consistR v k a hvk' hkv'
          have hak : lt a k = true := by rw [← hc]; exact h3 a ha
          simp [eqv, hak]
        have herase : eraseEquiv lt k (AVL.node l v ds r hh).toList
            = l.toList ++ (ds ++ r.toList) := by
          rw [hTL, eraseEquiv_append_of_none _ _ hln, eraseEquiv_cons_of_eqv _ hv]
        have hany : anyEquiv lt k (AVL.node l v ds r hh).toList = true := by
          rw [hTL]
          simp [anyEquiv, List.any_append, hv]
        simp only [AVL.delete, hkv', hvk', Bool.false_eq_true, if_false]
        cases ds with
        | cons d ds' =>
          refine ⟨by rw [hany], ?_, by intro hc; simp at hc⟩
          rw [herase]
          simp [AVL.toList, List.append_assoc]
        | nil =>
          cases hm : AVL.extractMax l with
          | none =>
            rw [extractMax_none_iff] at hm
            subst hm
            refine ⟨by rw [hany], ?_, by intro hc; simp at hc⟩
            rw [herase]
            simp [AVL.toList]
          | some p =>
            rcases p with ⟨l', pv, pds⟩
            refine ⟨by rw [hany], ?_, by intro hc; simp at hc⟩
            rw [toList_balance, herase, extractMax_toList l l' pv pds hm]
            simp [List.append_assoc]

/-- Witness for C3: the fixed deletion scenario evaluated through the
general theorem at the tree built from 1,5,2,3,4 — deleting 4, then 1, 2,
3, 5 yields [1,2,3,5], [2,3,5], [3,5], [5], [] in turn, each delete
returning true, and deleting the absent key 9 returns false leaving the
tree unchanged. -/
theorem avl_delete_removes_oldest_equivalent_witness :
    IsSWO natLt ∧
    AVL.ordered natLt (AVL.fromList natLt [1, 5, 2, 3, 4]) = true ∧
    (AVL.delete natLt 4 (AVL.fromList natLt [1, 5, 2, 3, 4])).1 = true ∧
    ((AVL.delete natLt 4 (AVL.fromList natLt [1, 5, 2, 3, 4])).2).toList
      = [1, 2, 3, 5] ∧
    (AVL.delete natLt 9 (AVL.fromList natLt [1, 5, 2, 3, 4])).2
      = AVL.fromList natLt [1, 5, 2, 3, 4] := by
  refine ⟨natLt_isSWO, by decide, ?_, ?_, ?_⟩
  · rw [(avl_delete_removes_oldest_equivalent natLt_isSWO 4
      (AVL.fromList natLt [1, 5, 2, 3, 4]) (by decide)).1]
    decide
  · rw [(avl_delete_removes_oldest_equivalent natLt_isSWO 4
      (AVL.fromList natLt [1, 5, 2, 3, 4]) (by decide)).2.1]
    decide
  · exact (avl_delete_removes_oldest_equivalent natLt_isSWO 9
      (AVL.fromList natLt [1, 5, 2, 3, 4]) (by decide)).2.2 (by decide)

theorem lookupJs_self {kvs : List (String × JsVal)} {k : String} {v : JsVal}
    (hnd : (kvs.map Prod.fst).Nodup) (hmem : (k, v) ∈ kvs) :
    lookupJs kvs k = some v := by
  induction kvs with
  | nil => simp at hmem
  | cons p rest ih =>
    rcases p with ⟨k', v'⟩
    simp only [List.map_cons, List.nodup_cons] at hnd
    rcases List.mem_cons.mp hmem with heq | hmem'
    · cases heq
      simp [lookupJs]
    · have hk : k' ≠ k := by
        intro hkk
        subst hkk
        exact hnd.1 (List.mem_map.mpr ⟨(k', v), hmem', rfl⟩)
      simp only [lookupJs, hk, if_false]
      exact ih hnd.2 hmem'

theorem jsEqualArr_refl (xs : List JsVal)
    (h : ∀ x ∈ xs, jsEqual x x = true) : jsEqualArr xs xs = true := by
  induction xs with
  | nil => simp [jsEqualArr]
  | cons x rest ih =>
    rw [jsEqualArr]
    rw [h x (List.mem_cons_self x rest), ih (fun y hy => h y (List.mem_cons_of_mem x hy))]
    rfl

theorem jsEqualObj_all (kvs : List (String × JsVal))
    (hnd : (kvs.map Prod.fst).Nodup)
    (hvals : ∀ p ∈ kvs, jsEqual p.2 p.2 = true ∧ p.2 ≠ JsVal.undefv) :
    ∀ as : List (String × JsVal), (∀ p ∈ as, p ∈ kvs) →
      jsEqualObj as kvs = true := by
  intro as
  induction as with
  | nil => intro _; rw [jsEqualObj]
  | cons p rest ih =>
    intro hsub
    rcases p with ⟨k, v⟩
    have hmem : (k, v) ∈ kvs := hsub (k, v) (List.mem_cons_self _ _)
    have hlk : lookupJs kvs k = some v := lookupJs_self hnd hmem
    have hv := hvals (k, v) hmem
    have hv1 : jsEqual v v = true := hv.1
    have hv2 : v ≠ JsVal.undefv := hv.2
    have hrest := ih (fun q hq => hsub q (List.mem_cons_of_mem _ hq))
    rw [jsEqualObj, hlk]
    cases v with
    | undefv => exact absurd rfl hv2
    | num a => simp [hv1, hrest]
    | str s => simp [hv1, hrest]
    | arr xs => simp [hv1, hrest]
    | obj o => simp [hv1, hrest]
    | boolv bb => simp [hv1, hrest]
    | nullv => simp [hv1, hrest]

theorem supported_arr_mem {xs : List JsVal} (h : supported (.arr xs) = true)
    {x : JsVal} (hx : x ∈ xs) : supported x = true := by
  rw [supported] at h
  simp only [List.all_eq_true, List.mem_attach, forall_true_left] at h
  exact h ⟨x, hx⟩

theorem supported_obj_parts {kvs : List (String × JsVal)}
    (h : supported (.obj kvs) = true) :
    (kvs.map Prod.fst).Nodup ∧ ∀ p ∈ kvs, supported p.2 = true := by
  rw [supported] at h
  simp only [Bool.and_eq_true, decide_eq_true_eq, List.all_eq_true,
    List.mem_attach, forall_true_left] at h
  exact ⟨h.1, fun p hp => h.2 ⟨p, hp⟩⟩

/-- The equal helper is reflexive on every supported value. -/
theorem jsEqual_refl : ∀ (n : Nat) (v : JsVal), sizeOf v ≤ n →
    supported v = true → jsEqual v v = true := by
  intro n
  induction n with
  | zero =>
    intro v hsz _
    exfalso
    cases v <;> simp at hsz
  | succ n ih =>
    intro v hsz hsup
    cases v with
    | num a => simp [jsEqual]
    | str s => simp [jsEqual]
    | arr xs =>
      have hall : ∀ x ∈ xs, jsEqual x x = true := by
        intro x hx
        have h1 : sizeOf x < sizeOf xs := List.sizeOf_lt_of_mem hx
        have h2 : sizeOf (JsVal.arr xs) = 1 + sizeOf xs := by simp
        exact ih x (by omega) (supported_arr_mem hsup hx)
      rw [jsEqual, jsEqualArr_refl xs hall]
      simp
    | obj kvs =>
      obtain ⟨hnd, hvals⟩ := supported_obj_parts hsup
      have hall : ∀ p ∈ kvs, jsEqual p.2 p.2 = true ∧ p.2 ≠ JsVal.undefv := by
        intro p hp
        have hps := hvals p hp
        have h1 : sizeOf p < sizeOf kvs := List.sizeOf_lt_of_mem hp
        have h2 : sizeOf p.2 < sizeOf p := by
          rcases p with ⟨k, v⟩
          simp only [Prod.mk.sizeOf_spec]
          omega
        have h3 : sizeOf (JsVal.obj kvs) = 1 + sizeOf kvs := by simp
        refine ⟨ih p.2 (by omega) hps, ?_⟩
        intro hu
        rw [hu] at hps
        rw [supported] at hps
        exact Bool.false_ne_true hps
      rw [jsEqual, jsEqualObj_all kvs hnd hall kvs (fun q hq => hq)]
      simp
    | boolv bb => rw [supported] at hsup; exact absurd hsup Bool.false_ne_true
    | nullv => rw [supported] at hsup; exact absurd hsup Bool.false_ne_true
    | undefv => rw [supported] at hsup; exact absurd hsup Bool.false_ne_true

/-- Values that are not both numbers, both strings, both arrays or both
plain objects always compare unequal. -/
theorem jsEqual_eq_false_of_shape (a b : JsVal)
    (h : bothSupportedShape a b = false) : jsEqual a b = false := by
  cases a <;> cases b <;> simp_all [jsEqual, bothSupportedShape]

/-- C9: the equal helper is reflexive exactly on its supported shapes —
equal(v,v) holds for every number, string, array of supported values and
plain (distinct-keyed) object of supported values — while any pair of
values that are not both of one of those four shapes compares false; in
particular equal(true,true), equal(null,null) and equal(undefined,
undefined) all evaluate to false. -/
theorem equal_reflexive_only_on_supported_shapes (v a b : JsVal)
    (hsup : supported v = true) (hshape : bothSupportedShape a b = false) :
    jsEqual v v = true ∧ jsEqual a b = false ∧
    jsEqual (.boolv true) (.boolv true) = false ∧
    jsEqual .nullv .nullv = false ∧
    jsEqual .undefv .undefv = false :=
  ⟨jsEqual_refl (sizeOf v) v (Nat.le_refl _) hsup,
   jsEqual_eq_false_of_shape a b hshape,
   by simp [jsEqual], by simp [jsEqual], by simp [jsEqual]⟩

/-- Witness for C9: the general statement applied to the supported value
[1, "x", {a: 2}] and to the unsupported pairing (true, true). -/
theorem equal_reflexive_only_on_supported_shapes_witness :
    supported (.arr [.num 1, .str "x", .obj [("a", .num 2)]]) = true ∧
    bothSupportedShape (.boolv true) (.boolv true) = false ∧
    jsEqual (.arr [.num 1, .str "x", .obj [("a", .num 2)]])
      (.arr [.num 1, .str "x", .obj [("a", .num 2)]]) = true ∧
    jsEqual (.boolv true) (.boolv true) = false := by
  have h1 : supported (.arr [.num 1, .str "x", .obj [("a", .num 2)]]) = true := by
    simp [supported]
  have h2 : bothSupportedShape (.boolv true) (.boolv true) = false := rfl
  have h := equal_reflexive_only_on_supported_shapes
    (.arr [.num 1, .str "x", .obj [("a", .num 2)]])
    (.boolv true) (.boolv true) h1 h2
  exact ⟨h1, h2, h.1, h.2.1⟩

/-- C4: on the ordered index holding {1,2,3,4,5} under numeric less-than,
the bound queries behave exactly as the fixed test scenarios dictate:
lowerKey(2) returns a non-null cursor whose value is 3, upperKey(4) a cursor
whose value is 3, and upperKey(2) a cursor whose value is 1. -/
theorem avl_bound_queries_match_fixed_scenarios :
    AVL.lowerKey natLt 2 (AVL.fromList natLt [1, 5, 2, 3, 4]) = some 3 ∧
    AVL.upperKey natLt 4 (AVL.fromList natLt [1, 5, 2, 3, 4]) = some 3 ∧
    AVL.upperKey natLt 2 (AVL.fromList natLt [1, 5, 2, 3, 4]) = some 1 := by
  refine ⟨?_, ?_, ?_⟩ <;> decide

/-- C6: the claim states that has(el) always returns on a finite list; in the
code the search loop never advances its node pointer, so on any list whose
first element differs from the probe the call never terminates — no amount
of loop fuel produces a result — while an empty list returns false and a
matching first element returns true. This refutes the termination claim at
the concrete input has(2) on the list [1, 2] (element present, first node
differing) for both list implementations. -/
theorem list_has_loops_forever_on_nonmatching_head :
    (∀ fuel : Nat, SLL.hasFuel 2 [1, 2] fuel = none) ∧
    (∀ fuel : Nat, DLL.hasFuel 2 [1, 2] fuel = none) ∧
    SLL.hasFuel 2 ([] : List Nat) 1 = some false ∧
    SLL.hasFuel 2 [2, 1] 1 = some true ∧
    DLL.hasFuel 2 ([] : List Nat) 1 = some false ∧
    DLL.hasFuel 2 [2, 1] 1 = some true := by
  refine ⟨?_, ?_, rfl, rfl, rfl, rfl⟩
  · intro fuel
    induction fuel with
    | zero => rfl
    | succ n ih => simpa [SLL.hasFuel] using ih
  · intro fuel
    induction fuel with
    | zero => rfl
    | succ n ih => simpa [DLL.hasFuel] using ih

/-- C7: the claim states that deleteAll returns the exact number of removed
occurrences and that delete removes exactly the first occurrence; in the
code, SingleLinkedList.deleteAll splices out a whole contiguous run of equal
nodes while incrementing its counter once, so deleteAll(1) on [1, 1] removes
both occurrences yet returns 1; and the older unnamed copy's delete sets
_firstNode to null on a head match, so delete(1) on [1, 2] returns true but
empties the whole list instead of leaving [2]. The current
SingleLinkedList.delete does behave as claimed on the same input. -/
theorem list_delete_count_and_head_defects :
    SLL.deleteAllRuns 1 [1, 1] = (1, ([] : List Nat)) ∧
    SLL.deleteAllRuns 1 [1, 2, 1] = (2, [2]) ∧
    V0.delete 1 [1, 2] = (true, ([] : List Nat)) ∧
    SLL.deleteFirst 1 [1, 2] = (true, [2]) := by
  refine ⟨?_, ?_, ?_, ?_⟩ <;>
    simp [SLL.deleteAllRuns, SLL.dropRun, V0.delete, V0.deleteAux, SLL.deleteFirst]

/-- C8: the claim states that lesser is a strict weak ordering, in
particular consistent: whenever neither of two values precedes the other,
they must compare identically against every third value. On arrays the
foundLesser scan violates this: [1,2] and [2,1] are incomparable, yet
lesser([1,2],[1,3]) is true while lesser([2,1],[1,3]) is false. -/
theorem lesser_violates_swo_consistency :
    lesser (.arr [.num 1, .num 2]) (.arr [.num 2, .num 1]) = false ∧
    lesser (.arr [.num 2, .num 1]) (.arr [.num 1, .num 2]) = false ∧
    lesser (.arr [.num 1, .num 2]) (.arr [.num 1, .num 3]) = true ∧
    lesser (.arr [.num 2, .num 1]) (.arr [.num 1, .num 3]) = false := by
  refine ⟨?_, ?_, ?_, ?_⟩ <;> simp [lesser, lesserArr]

theorem insIndex_perm {ε κ : Type} [DecidableEq κ]
    (d : IndexKind ε κ) (c c' : List ε) (x : ε)
    (h : insIndex d c x = some c') : c'.Perm (x :: c) := by
  cases d with
  | seq =>
    simp only [insIndex, Option.some.injEq] at h
    subst h
    exact List.perm_append_singleton x c
  | hashed key unique =>
    simp only [insIndex] at h
    by_cases hc : (unique && c.any fun y => decide (key y = key x)) = true
    · rw [if_pos hc] at h; cases h
    · rw [if_neg hc] at h
      cases h
      exact List.perm_append_singleton x c
  | ordered key klt =>
    simp only [insIndex, Option.some.injEq] at h
    subst h
    exact sIns_perm _ x c

/-- C2: on any secondary-index uniqueness rejection during fan-out, the
whole add/append fails and every index (primary and secondaries alike) ends
with exactly the size and membership it had before the call: descriptors are
unchanged and every index's contents is a permutation of (hence equal as a
multiset to) its previous contents. -/
theorem mi_unique_violation_rolls_back {ε κ : Type} [DecidableEq ε]
    [DecidableEq κ] (x : ε) (st : List (IndexKind ε κ × List ε))
    (h : (fanout x st).2 = false) :
    List.Forall₂ (fun p q => p.1 = q.1 ∧ p.2.Perm q.2) (fanout x st).1 st := by
  induction st with
  | nil => simp [fanout] at h
  | cons hd rest ih =>
    rcases hd with ⟨d, c⟩
    simp only [fanout] at h ⊢
    cases hins : insIndex d c x with
    | none =>
      simp only [hins]
      exact List.Forall₂.cons ⟨rfl, List.Perm.refl c⟩
        (List.forall₂_same.mpr (fun p _ => ⟨rfl, List.Perm.refl p.2⟩))
    | some c' =>
      simp only [hins] at h ⊢
      cases hok : (fanout x rest).2 with
      | true => rw [hok] at h; simp at h
      | false =>
        simp only [Bool.false_eq_true, if_false]
        refine List.Forall₂.cons ⟨rfl, ?_⟩ (ih hok)
        have hp : (c'.erase x).Perm ((x :: c).erase x) :=
          (insIndex_perm d c c' x hins).erase x
        simpa [delIndex] using hp

/-- Witness for C2: a container with a sequential primary and a hashed
unique secondary holding the element 5; adding 5 again is rejected by the
secondary, the call fails, and both indices keep their previous contents. -/
theorem mi_unique_violation_rolls_back_witness :
    (fanout 5 [(IndexKind.seq, [5]), (IndexKind.hashed (fun n => n) true, [5])]).2
      = false ∧
    List.Forall₂ (fun p q => p.1 = q.1 ∧ p.2.Perm q.2)
      (fanout 5 [(IndexKind.seq, [5]),
        (IndexKind.hashed (fun n : Nat => n) true, [5])]).1
      [(IndexKind.seq, [5]), (IndexKind.hashed (fun n : Nat => n) true, [5])] :=
  ⟨rfl, mi_unique_violation_rolls_back 5 _ rfl⟩

/-- C5: in the README container (sequential primary, hashed unique id,
hashed name, ordered age, ordered salary descending) over the three records,
finding Bob through the name index, stepping once backwards in the salary
index lands on Fred, stepping once forwards in the age index lands on Jane,
and deleteAt removes Bob from every registered index, so no full iteration
contains him afterwards. -/
theorem readme_cross_index_navigation_and_delete :
    findByKey (fun e => EKey.s e.name) (.s "Bob") (contentsAt readmeState 2)
      = some bob ∧
    prevIn (contentsAt readmeState 4) bob = some fred ∧
    nextIn (contentsAt readmeState 3) bob = some jane ∧
    (∀ i : Fin 5, bob ∉ contentsAt (delEverywhere bob readmeState) i) := by
  refine ⟨?_, ?_, ?_, ?_⟩ <;> decide

/-- Counterexample for C10 as originally claimed: on the vector reached
from the empty integer vector by append(1), append(2), append(3),
delete(3), delete(2) — live region [1], but stale copies of 2 and 3 left
in the backing storage by copyWithin — insertAfter(pos, 10) (= append(10))
does not leave "the element added and the whole vector re-sorted": the
whole-backing sort yields live region [1, 3], resurrecting the deleted 3
and dropping the appended 10 entirely, instead of [1, 10]. -/
theorem sortVector_append_after_delete_drops_element :
    (cexFull.delete 3).1 = true ∧
    ((cexFull.delete 3).2.delete 2).1 = true ∧
    cexShrunk.elements = [1] ∧
    (cexShrunk.insertAfter 0 10).1.elements = [1, 3] ∧
    jsSortBy cexShrunk.cmp (cexShrunk.elements ++ [10]) = [1, 10] ∧
    (10 : Int) ∉ (cexShrunk.insertAfter 0 10).1.elements := by
  refine ⟨?_, ?_, ?_, ?_, ?_, ?_⟩ <;> decide

/-- C10 (amended): SortVector.insertAfter and SortVector.insertBefore
ignore the supplied position and are each observably equal to append —
identical state and cursor for every vector, position and element, so
positional insertion is never honoured. Append's state is "the element
added and the whole vector re-sorted by the comparator" exactly on vectors
whose backing storage has no stale slots beyond the live region (count =
backing length, e.g. any vector built by appends alone); with stale slots
the whole-backing sort can displace the appended element (see the
counterexample). -/
theorem sortVector_positional_inserts_are_append {α : Type} [LinearOrder α]
    [DecidableEq α] (v : SortVector α) (pos : Nat) (el : α) :
    v.insertAfter pos el = v.append el ∧
    v.insertBefore pos el = v.append el ∧
    (v.append el).1.cmp = v.cmp ∧
    (v.count = v.backing.length →
      (v.append el).1.elements = jsSortBy v.cmp (v.elements ++ [el]) ∧
      ((v.append el).1.elements).Perm (el :: v.elements)) := by
  refine ⟨rfl, rfl, rfl, ?_⟩
  intro hns
  have hel : v.elements = v.backing := by
    rw [SortVector.elements, hns, List.take_length]
  have hw : jsWrite v.backing v.count el = v.backing ++ [el] := by
    rw [jsWrite, hns]
    simp
  have hp := stableSorted_perm (fun a b => decide (v.cmp a b < 0))
    (v.backing ++ [el])
  have hlen : (jsSortBy v.cmp (v.backing ++ [el])).length = v.count + 1 := by
    rw [jsSortBy, hp.length_eq]
    simp [hns]
  have he : (v.append el).1.elements = jsSortBy v.cmp (v.backing ++ [el]) := by
    show (jsSortBy v.cmp (jsWrite v.backing v.count el)).take (v.count + 1) = _
    rw [hw, ← hlen, List.take_length]
  refine ⟨by rw [he, hel], ?_⟩
  rw [he, hel]
  exact hp.trans (List.perm_append_singleton el v.backing)

/-- Witness for C10: the amended statement applied to a concrete
stale-slot-free sorted vector of integers, a concrete cursor position and
a concrete element. -/
theorem sortVector_positional_inserts_are_append_witness :
    (SortVector.insertAfter ⟨[1, 3], 2, fun a b => a - b⟩ 0 (2 : Int)
      = SortVector.append ⟨[1, 3], 2, fun a b => a - b⟩ 2) ∧
    (2 = ([1, 3] : List Int).length) ∧
    (SortVector.append ⟨[1, 3], 2, fun a b : Int => a - b⟩ 2).1.elements
      = [1, 2, 3] := by
  have h := sortVector_positional_inserts_are_append
    (⟨[1, 3], 2, fun a b => a - b⟩ : SortVector Int) 0 2
  refine ⟨h.1, rfl, ?_⟩
  rw [(h.2.2.2 rfl).1]
  decide

end Scl
